import Mathlib

/-!
Verification of the QUBO-builder core of the Quantum-Optimization repository
(`nfl_dwave.py`), of the LP budget constraint of `nfl_pulp.py`, and of the
AQI helper and the `fit_and_forecast` return statement of `sarima.py`.

The Python dictionary `Q` is embedded as an insertion-ordered association
list from index pairs to rational coefficients; each `Q[(i,j)] += v`
statement of the source becomes an `addTo` update, and each loop of the
source becomes a list of updates generated in the same iteration order.
Real arithmetic is embedded as `ℚ`.
-/

namespace QuantumOpt

/-- An entry of the `players` list of `nfl_dwave.py`: a tuple
`(id, position, points, salary)`.  `players[i][1]` is `pos`,
`players[i][2]` is `points`, `players[i][3]` is `cost`. -/
structure Player where
  id : Nat
  pos : String
  points : ℚ
  cost : ℚ
deriving DecidableEq, Repr

/-- `players[i]` (all accesses in the source are in range, so the default
is never reached on the source's own loops). -/
def playerAt (ps : List Player) (i : Nat) : Player :=
  ps.getD i ⟨0, "", 0, 0⟩

/-- The QUBO dictionary `Q`, as an insertion-ordered association list. -/
abbrev QMap := List ((Nat × Nat) × ℚ)

/-- `Q[k] += v`: add `v` to the value stored at key `k`, leaving all other
entries (and the key order) unchanged. -/
def addTo (k : Nat × Nat) (v : ℚ) (Q : QMap) : QMap :=
  Q.map (fun e => if e.1 = k then (e.1, e.2 + v) else e)

/-- Apply a list of `+=` updates in order. -/
def applyUpdates (us : List ((Nat × Nat) × ℚ)) (Q : QMap) : QMap :=
  us.foldl (fun Q u => addTo u.1 u.2 Q) Q

/-- `Q = {(i, i): 0.0 for i in range(N)}` followed by
`Q.update({(i, j): 0.0 for i in range(N) for j in range(i+1, N)})`
(lines 30–31 of `nfl_dwave.py`). -/
def initQ (N : Nat) : QMap :=
  ((List.range N).map (fun i => ((i, i), (0 : ℚ)))) ++
    ((List.range N).flatMap (fun i =>
      (List.range' (i + 1) (N - (i + 1))).map (fun j => ((i, j), (0 : ℚ)))))

/-- Points pass (lines 36–37): `Q[(i,i)] -= alpha * players[i][2]`. -/
def objectiveUpdates (ps : List Player) (alpha : ℚ) : List ((Nat × Nat) × ℚ) :=
  (List.range ps.length).map (fun i => ((i, i), -(alpha * (playerAt ps i).points)))

/-- Salary/budget pass (lines 40–44): for each `i`,
`Q[(i,i)] += beta * players[i][3]**2`, `Q[(i,i)] -= 2*beta*budget*players[i][3]`,
then for each `j` in `range(i+1, N)`, `Q[(i,j)] += 2*beta*players[i][3]*players[j][3]`. -/
def budgetUpdates (ps : List Player) (budget beta : ℚ) : List ((Nat × Nat) × ℚ) :=
  (List.range ps.length).flatMap (fun i =>
    ((i, i), beta * (playerAt ps i).cost ^ 2) ::
    ((i, i), -(2 * beta * budget * (playerAt ps i).cost)) ::
    (List.range' (i + 1) (ps.length - (i + 1))).map
      (fun j => ((i, j), 2 * beta * (playerAt ps i).cost * (playerAt ps j).cost)))

/-- Positional pass (lines 47–53): for each `(pos, n_k)` of `positional_reqs`,
for each `i` with `players[i][1] == pos`, `Q[(i,i)] += gamma * (1 - 2*n_k)`,
then for each later `j` with `players[j][1] == pos`, `Q[(i,j)] += 2*gamma`. -/
def categoryUpdates (ps : List Player) (reqs : List (String × ℤ)) (gamma : ℚ) :
    List ((Nat × Nat) × ℚ) :=
  reqs.flatMap (fun pn =>
    (List.range ps.length).flatMap (fun i =>
      if (playerAt ps i).pos = pn.1 then
        ((i, i), gamma * (1 - 2 * (pn.2 : ℚ))) ::
        ((List.range' (i + 1) (ps.length - (i + 1))).filter
          (fun j => (playerAt ps j).pos = pn.1)).map (fun j => ((i, j), 2 * gamma))
      else []))

/-- Team-size pass (lines 57–60): for each `i`,
`Q[(i,i)] += delta * (1 - 2*team_size)`, then for each `j` in
`range(i+1, N)`, `Q[(i,j)] += 2*delta`. -/
def sizeUpdates (ps : List Player) (team_size : ℤ) (delta : ℚ) :
    List ((Nat × Nat) × ℚ) :=
  (List.range ps.length).flatMap (fun i =>
    ((i, i), delta * (1 - 2 * (team_size : ℚ))) ::
    (List.range' (i + 1) (ps.length - (i + 1))).map (fun j => ((i, j), 2 * delta)))

/-- The full QUBO builder of `nfl_dwave.py` (lines 29–60): initialise the
dictionary, then run the points, salary, positional and team-size passes
in the source's order. -/
def buildQ (ps : List Player) (budget : ℚ) (reqs : List (String × ℤ))
    (team_size : ℤ) (alpha beta gamma delta : ℚ) : QMap :=
  applyUpdates (sizeUpdates ps team_size delta)
    (applyUpdates (categoryUpdates ps reqs gamma)
      (applyUpdates (budgetUpdates ps budget beta)
        (applyUpdates (objectiveUpdates ps alpha) (initQ ps.length))))

/-- Reading a coefficient out of the dictionary (0 if the key is absent;
every key the claims inspect is present). -/
def qVal (Q : QMap) (k : Nat × Nat) : ℚ :=
  (Q.lookup k).getD 0

/-- Total amount a list of `+=` updates adds at key `k`. -/
def contrib (us : List ((Nat × Nat) × ℚ)) (k : Nat × Nat) : ℚ :=
  ((us.filter (fun u => u.1 = k)).map Prod.snd).sum

/-- Pointwise addition of `f` over all entries of the dictionary. -/
def mapAdd (f : Nat × Nat → ℚ) (Q : QMap) : QMap :=
  Q.map (fun e => (e.1, e.2 + f e.1))

theorem addTo_eq_mapAdd (k : Nat × Nat) (v : ℚ) (Q : QMap) :
    addTo k v Q = mapAdd (fun x => if x = k then v else 0) Q := by
  unfold addTo mapAdd
  apply List.map_congr_left
  intro e _
  by_cases h : e.1 = k <;> simp [h]

theorem mapAdd_mapAdd (f g : Nat × Nat → ℚ) (Q : QMap) :
    mapAdd f (mapAdd g Q) = mapAdd (fun k => g k + f k) Q := by
  unfold mapAdd
  rw [List.map_map]
  apply List.map_congr_left
  intro e _
  simp [Function.comp, add_assoc]

theorem contrib_nil (k : Nat × Nat) : contrib [] k = 0 := rfl

theorem contrib_cons (u : (Nat × Nat) × ℚ) (us : List ((Nat × Nat) × ℚ))
    (k : Nat × Nat) :
    contrib (u :: us) k = (if u.1 = k then u.2 else 0) + contrib us k := by
  unfold contrib
  rw [List.filter_cons]
  by_cases h : u.1 = k <;> simp [h]

theorem applyUpdates_eq_mapAdd (us : List ((Nat × Nat) × ℚ)) (Q : QMap) :
    applyUpdates us Q = mapAdd (contrib us) Q := by
  induction us generalizing Q with
  | nil =>
    have h : contrib [] = fun _ => (0 : ℚ) := rfl
    unfold applyUpdates
    rw [List.foldl_nil, h]
    unfold mapAdd
    simp
  | cons u us ih =>
    have h1 : applyUpdates (u :: us) Q = applyUpdates us (addTo u.1 u.2 Q) := rfl
    rw [h1, ih, addTo_eq_mapAdd, mapAdd_mapAdd]
    congr 1
    funext x
    rw [contrib_cons]
    congr 1
    exact if_congr eq_comm rfl rfl

theorem map_fst_mapAdd (f : Nat × Nat → ℚ) (Q : QMap) :
    (mapAdd f Q).map Prod.fst = Q.map Prod.fst := by
  unfold mapAdd
  rw [List.map_map]
  rfl

theorem lookup_mapAdd (f : Nat × Nat → ℚ) (Q : QMap) (k : Nat × Nat) :
    (mapAdd f Q).lookup k = (Q.lookup k).map (fun v => v + f k) := by
  induction Q with
  | nil => rfl
  | cons e t ih =>
    obtain ⟨ek, ev⟩ := e
    show ((ek, ev + f ek) :: mapAdd f t).lookup k = _
    by_cases h : ek = k
    · subst h
      simp [List.lookup_cons]
    · have hb : (k == ek) = false := beq_eq_false_iff_ne.mpr (Ne.symm h)
      simp only [List.lookup, hb]
      exact ih

theorem lookup_all_zero {Q : QMap} {k : Nat × Nat}
    (h0 : ∀ e ∈ Q, e.2 = 0) (hk : k ∈ Q.map Prod.fst) :
    Q.lookup k = some 0 := by
  induction Q with
  | nil => simp at hk
  | cons e t ih =>
    obtain ⟨ek, ev⟩ := e
    have hev : ev = 0 := h0 (ek, ev) (by simp)
    by_cases h : ek = k
    · subst h
      simp [List.lookup_cons, hev]
    · have hk' : k ∈ t.map Prod.fst := by
        rcases List.mem_cons.mp hk with h1 | h1
        · exact absurd h1.symm h
        · exact h1
      have hb : (k == ek) = false := beq_eq_false_iff_ne.mpr (Ne.symm h)
      simp only [List.lookup, hb]
      exact ih (fun e he => h0 e (List.mem_cons_of_mem _ he)) hk'

theorem qVal_mapAdd (f : Nat × Nat → ℚ) (Q : QMap) (k : Nat × Nat)
    (h : (Q.lookup k).isSome) :
    qVal (mapAdd f Q) k = qVal Q k + f k := by
  obtain ⟨v, hv⟩ := Option.isSome_iff_exists.mp h
  unfold qVal
  rw [lookup_mapAdd, hv]
  rfl

/-- A pass only ever adds: reading any key that is present after running a
list of updates gives the old value plus the pass's total contribution. -/
theorem qVal_applyUpdates (us : List ((Nat × Nat) × ℚ)) (Q : QMap)
    (k : Nat × Nat) (h : (Q.lookup k).isSome) :
    qVal (applyUpdates us Q) k = qVal Q k + contrib us k := by
  rw [applyUpdates_eq_mapAdd]
  exact qVal_mapAdd _ _ _ h

theorem initQ_entries_zero {N : Nat} : ∀ e ∈ initQ N, e.2 = 0 := by
  intro e he
  simp only [initQ, List.mem_append, List.mem_map, List.mem_flatMap,
    List.mem_range] at he
  rcases he with ⟨i, _, rfl⟩ | ⟨i, _, j, _, rfl⟩
  · rfl
  · rfl

theorem mem_initQ_keys {N a b : Nat} :
    (a, b) ∈ (initQ N).map Prod.fst ↔ a ≤ b ∧ b < N := by
  simp only [initQ, List.map_append, List.map_map, List.map_flatMap,
    List.mem_append, List.mem_map, List.mem_flatMap, List.mem_range,
    Function.comp, List.mem_range'_1, Prod.mk.injEq]
  constructor
  · rintro (⟨i, hi, rfl, rfl⟩ | ⟨i, hi, j, ⟨hj1, hj2⟩, rfl, rfl⟩)
    · omega
    · omega
  · rintro ⟨hab, hbN⟩
    rcases Nat.eq_or_lt_of_le hab with rfl | hlt
    · left; exact ⟨a, hbN, rfl, rfl⟩
    · right; exact ⟨a, by omega, b, ⟨by omega, by omega⟩, rfl, rfl⟩

theorem initQ_lookup {N a b : Nat} (hab : a ≤ b) (hbN : b < N) :
    (initQ N).lookup (a, b) = some 0 :=
  lookup_all_zero initQ_entries_zero (mem_initQ_keys.mpr ⟨hab, hbN⟩)

theorem sum_list_range {M : Type} [AddCommMonoid M] (n : Nat) (f : Nat → M) :
    ((List.range n).map f).sum = ∑ i in Finset.range n, f i := by
  induction n with
  | zero => simp
  | succ n ih =>
    rw [List.range_succ, List.map_append, List.sum_append,
      Finset.sum_range_succ, ih]
    simp

theorem sum_list_range' (s n : Nat) (f : Nat → ℚ) :
    ((List.range' s n).map f).sum = ∑ j in Finset.Ico s (s + n), f j := by
  rw [List.range'_eq_map_range, List.map_map, Finset.sum_Ico_eq_sum_range,
    (show s + n - s = n by omega), ← sum_list_range]
  rfl

theorem sum_collapse (N a : Nat) (C : Nat → Prop) [DecidablePred C]
    (v : Nat → ℚ) :
    (∑ i in Finset.range N, if i = a ∧ C i then v i else 0)
      = if a < N ∧ C a then v a else 0 := by
  by_cases h : a < N ∧ C a
  · rw [if_pos h, Finset.sum_eq_single_of_mem a (Finset.mem_range.mpr h.1)]
    · rw [if_pos ⟨rfl, h.2⟩]
    · intro i _ hne
      exact if_neg (fun hc => hne hc.1)
  · rw [if_neg h]
    apply Finset.sum_eq_zero
    intro i hi
    rw [if_neg]
    rintro ⟨rfl, hC⟩
    exact h ⟨Finset.mem_range.mp hi, hC⟩

theorem sum_collapse_Ico (lo hi b : Nat) (C : Nat → Prop) [DecidablePred C]
    (v : Nat → ℚ) :
    (∑ j in Finset.Ico lo hi, if j = b ∧ C j then v j else 0)
      = if (lo ≤ b ∧ b < hi) ∧ C b then v b else 0 := by
  by_cases h : (lo ≤ b ∧ b < hi) ∧ C b
  · rw [if_pos h, Finset.sum_eq_single_of_mem b (Finset.mem_Ico.mpr h.1)]
    · rw [if_pos ⟨rfl, h.2⟩]
    · intro j _ hne
      exact if_neg (fun hc => hne hc.1)
  · rw [if_neg h]
    apply Finset.sum_eq_zero
    intro j hj
    rw [if_neg]
    rintro ⟨rfl, hC⟩
    exact h ⟨Finset.mem_Ico.mp hj, hC⟩

theorem contrib_append (l1 l2 : List ((Nat × Nat) × ℚ)) (k : Nat × Nat) :
    contrib (l1 ++ l2) k = contrib l1 k + contrib l2 k := by
  unfold contrib
  rw [List.filter_append, List.map_append, List.sum_append]

theorem contrib_flatMap {α : Type} (l : List α)
    (g : α → List ((Nat × Nat) × ℚ)) (k : Nat × Nat) :
    contrib (l.flatMap g) k = (l.map (fun x => contrib (g x) k)).sum := by
  induction l with
  | nil => rfl
  | cons x t ih =>
    rw [List.flatMap_cons, contrib_append, ih]
    simp

theorem contrib_map {α : Type} (l : List α) (h : α → (Nat × Nat) × ℚ)
    (k : Nat × Nat) :
    contrib (l.map h) k
      = (l.map (fun x => if (h x).1 = k then (h x).2 else 0)).sum := by
  induction l with
  | nil => rfl
  | cons x t ih =>
    rw [List.map_cons, contrib_cons, ih]
    simp

theorem sum_map_filter {α : Type} (l : List α) (q : α → Bool) (f : α → ℚ) :
    ((l.filter q).map f).sum
      = (l.map (fun x => if q x then f x else 0)).sum := by
  induction l with
  | nil => rfl
  | cons x t ih =>
    rw [List.filter_cons]
    by_cases h : q x = true <;> simp [h, ih]

theorem ite_ite_fuse {A B : Prop} [Decidable A] [Decidable B] (v : ℚ) :
    (if A then (if B then v else 0) else 0) = if B ∧ A then v else 0 := by
  by_cases hA : A <;> by_cases hB : B <;> simp [hA, hB]

theorem ite_add_split {A : Prop} [Decidable A] (x y : ℚ) :
    (if A then x + y else 0) = (if A then x else 0) + (if A then y else 0) := by
  by_cases hA : A <;> simp [hA]

/-- Closed form of the points pass: it touches the diagonal of every entity
and nothing else. -/
theorem contrib_objectiveUpdates (ps : List Player) (alpha : ℚ) (a b : Nat) :
    contrib (objectiveUpdates ps alpha) (a, b)
      = if a = b ∧ a < ps.length then -(alpha * (playerAt ps a).points)
        else 0 := by
  unfold objectiveUpdates
  rw [contrib_map, sum_list_range]
  rw [Finset.sum_congr rfl (fun i _ =>
    if_congr (by simp [Prod.mk.injEq]) rfl rfl :
      ∀ i ∈ Finset.range ps.length,
        (if ((i, i), -(alpha * (playerAt ps i).points)).1 = (a, b)
          then ((i, i), -(alpha * (playerAt ps i).points)).2 else 0)
        = if i = a ∧ i = b then -(alpha * (playerAt ps i).points) else 0)]
  rw [sum_collapse ps.length a (fun i => i = b)
    (fun i => -(alpha * (playerAt ps i).points))]
  split_ifs <;> first | rfl | (exfalso; omega)

/-- Closed form of the salary pass. -/
theorem contrib_budgetUpdates (ps : List Player) (B beta : ℚ) (a b : Nat) :
    contrib (budgetUpdates ps B beta) (a, b)
      = if a = b ∧ a < ps.length then
          beta * (playerAt ps a).cost ^ 2 - 2 * beta * B * (playerAt ps a).cost
        else if a < b ∧ b < ps.length then
          2 * beta * (playerAt ps a).cost * (playerAt ps b).cost
        else 0 := by
  unfold budgetUpdates
  rw [contrib_flatMap, sum_list_range]
  have hterm : ∀ i ∈ Finset.range ps.length,
      contrib (((i, i), beta * (playerAt ps i).cost ^ 2) ::
        ((i, i), -(2 * beta * B * (playerAt ps i).cost)) ::
        (List.range' (i + 1) (ps.length - (i + 1))).map
          (fun j => ((i, j),
            2 * beta * (playerAt ps i).cost * (playerAt ps j).cost))) (a, b)
      = (if i = a ∧ i = b then beta * (playerAt ps i).cost ^ 2 else 0)
        + ((if i = a ∧ i = b then -(2 * beta * B * (playerAt ps i).cost) else 0)
          + (if i = a ∧ (i + 1 ≤ b ∧ b < ps.length) then
              2 * beta * (playerAt ps i).cost * (playerAt ps b).cost else 0)) := by
    intro i hi
    rw [contrib_cons, contrib_cons, contrib_map, sum_list_range',
      (show i + 1 + (ps.length - (i + 1)) = ps.length by
        have := Finset.mem_range.mp hi; omega)]
    congr 1
    · exact if_congr (by simp [Prod.mk.injEq]) rfl rfl
    congr 1
    · exact if_congr (by simp [Prod.mk.injEq]) rfl rfl
    · rw [Finset.sum_congr rfl (fun j _ =>
        if_congr (by simp only [Prod.mk.injEq]; exact and_comm) rfl rfl :
          ∀ j ∈ Finset.Ico (i + 1) ps.length,
            (if ((i, j), 2 * beta * (playerAt ps i).cost * (playerAt ps j).cost).1
                = (a, b)
              then ((i, j),
                2 * beta * (playerAt ps i).cost * (playerAt ps j).cost).2 else 0)
            = if j = b ∧ i = a then
                2 * beta * (playerAt ps i).cost * (playerAt ps j).cost else 0)]
      rw [sum_collapse_Ico (i + 1) ps.length b (fun _ => i = a)
        (fun j => 2 * beta * (playerAt ps i).cost * (playerAt ps j).cost)]
      exact if_congr and_comm rfl rfl
  rw [Finset.sum_congr rfl hterm, Finset.sum_add_distrib, Finset.sum_add_distrib]
  rw [sum_collapse ps.length a (fun i => i = b)
    (fun i => beta * (playerAt ps i).cost ^ 2)]
  rw [sum_collapse ps.length a (fun i => i = b)
    (fun i => -(2 * beta * B * (playerAt ps i).cost))]
  rw [sum_collapse ps.length a (fun i => i + 1 ≤ b ∧ b < ps.length)
    (fun i => 2 * beta * (playerAt ps i).cost * (playerAt ps b).cost)]
  split_ifs <;> first | ring1 | (exfalso; omega)

/-- Per-entity term of the positional pass, fully collapsed. -/
theorem contrib_cat_inner (ps : List Player) (p : String) (n : ℤ) (gamma : ℚ)
    (a b i : Nat) (hi : i < ps.length) :
    contrib (if (playerAt ps i).pos = p then
        ((i, i), gamma * (1 - 2 * (n : ℚ))) ::
        ((List.range' (i + 1) (ps.length - (i + 1))).filter
          (fun j => (playerAt ps j).pos = p)).map (fun j => ((i, j), 2 * gamma))
      else []) (a, b)
    = (if i = a ∧ (i = b ∧ (playerAt ps i).pos = p) then
        gamma * (1 - 2 * (n : ℚ)) else 0)
      + (if i = a ∧ ((i + 1 ≤ b ∧ b < ps.length) ∧
          (playerAt ps i).pos = p ∧ (playerAt ps b).pos = p) then
        2 * gamma else 0) := by
  by_cases hp : (playerAt ps i).pos = p
  · rw [if_pos hp, contrib_cons, contrib_map, sum_map_filter, sum_list_range',
      (show i + 1 + (ps.length - (i + 1)) = ps.length by omega)]
    congr 1
    · exact if_congr (by simp [Prod.mk.injEq, hp]) rfl rfl
    · have hj : ∀ j ∈ Finset.Ico (i + 1) ps.length,
          (if decide ((playerAt ps j).pos = p) = true then
            (if ((i, j), 2 * gamma).1 = (a, b) then ((i, j), 2 * gamma).2 else 0)
          else 0)
          = if j = b ∧ (i = a ∧ (playerAt ps j).pos = p) then 2 * gamma
            else 0 := by
        intro j _
        rw [ite_ite_fuse]
        exact if_congr (by simp only [decide_eq_true_eq, Prod.mk.injEq]; tauto)
          rfl rfl
      rw [Finset.sum_congr rfl hj]
      rw [sum_collapse_Ico (i + 1) ps.length b
        (fun j => i = a ∧ (playerAt ps j).pos = p) (fun _ => 2 * gamma)]
      exact if_congr (by tauto) rfl rfl
  · rw [if_neg hp, contrib_nil]
    simp [hp]

/-- Closed form of the positional pass for a single `(position, quota)`
requirement: it touches exactly the entities of that position. -/
theorem contrib_categoryUpdates_single (ps : List Player) (p : String) (n : ℤ)
    (gamma : ℚ) (a b : Nat) :
    contrib (categoryUpdates ps [(p, n)] gamma) (a, b)
      = if (a = b ∧ a < ps.length) ∧ (playerAt ps a).pos = p then
          gamma * (1 - 2 * (n : ℚ))
        else if (a < b ∧ b < ps.length) ∧
            (playerAt ps a).pos = p ∧ (playerAt ps b).pos = p then
          2 * gamma
        else 0 := by
  unfold categoryUpdates
  rw [List.flatMap_cons, List.flatMap_nil, List.append_nil]
  rw [contrib_flatMap, sum_list_range]
  refine Eq.trans (Finset.sum_congr rfl (fun i hi =>
    contrib_cat_inner ps p n gamma a b i (Finset.mem_range.mp hi))) ?_
  rw [Finset.sum_add_distrib]
  rw [sum_collapse ps.length a
    (fun i => i = b ∧ (playerAt ps i).pos = p)
    (fun _ => gamma * (1 - 2 * (n : ℚ)))]
  rw [sum_collapse ps.length a
    (fun i => (i + 1 ≤ b ∧ b < ps.length) ∧
      (playerAt ps i).pos = p ∧ (playerAt ps b).pos = p)
    (fun _ => 2 * gamma)]
  by_cases hx : a < b ∧ b < ps.length
  · have hx' : a + 1 ≤ b ∧ b < ps.length := by omega
    have haL : a < ps.length := by omega
    have hne : ¬a = b := by omega
    split_ifs <;> first | ring1 | tauto
  · have hx' : ¬(a + 1 ≤ b ∧ b < ps.length) := by omega
    split_ifs <;> first | ring1 | tauto

/-- The positional pass over a full requirement list is the entry-wise sum
over the single-requirement passes. -/
theorem contrib_categoryUpdates_cons (ps : List Player) (pn : String × ℤ)
    (rest : List (String × ℤ)) (gamma : ℚ) (k : Nat × Nat) :
    contrib (categoryUpdates ps (pn :: rest) gamma) k
      = contrib (categoryUpdates ps [pn] gamma) k
        + contrib (categoryUpdates ps rest gamma) k := by
  unfold categoryUpdates
  simp only [List.flatMap_cons, List.flatMap_nil, List.append_nil, contrib_append]

/-- Closed form of the team-size pass. -/
theorem contrib_sizeUpdates (ps : List Player) (ts : ℤ) (delta : ℚ)
    (a b : Nat) :
    contrib (sizeUpdates ps ts delta) (a, b)
      = if a = b ∧ a < ps.length then delta * (1 - 2 * (ts : ℚ))
        else if a < b ∧ b < ps.length then 2 * delta
        else 0 := by
  unfold sizeUpdates
  rw [contrib_flatMap, sum_list_range]
  have hterm : ∀ i ∈ Finset.range ps.length,
      contrib (((i, i), delta * (1 - 2 * (ts : ℚ))) ::
        (List.range' (i + 1) (ps.length - (i + 1))).map
          (fun j => ((i, j), 2 * delta))) (a, b)
      = (if i = a ∧ i = b then delta * (1 - 2 * (ts : ℚ)) else 0)
        + (if i = a ∧ (i + 1 ≤ b ∧ b < ps.length) then 2 * delta else 0) := by
    intro i hi
    rw [contrib_cons, contrib_map, sum_list_range',
      (show i + 1 + (ps.length - (i + 1)) = ps.length by
        have := Finset.mem_range.mp hi; omega)]
    congr 1
    · exact if_congr (by simp [Prod.mk.injEq]) rfl rfl
    · rw [Finset.sum_congr rfl (fun j _ =>
        if_congr (by simp only [Prod.mk.injEq]; exact and_comm) rfl rfl :
          ∀ j ∈ Finset.Ico (i + 1) ps.length,
            (if ((i, j), 2 * delta).1 = (a, b)
              then ((i, j), 2 * delta).2 else 0)
            = if j = b ∧ i = a then 2 * delta else 0)]
      rw [sum_collapse_Ico (i + 1) ps.length b (fun _ => i = a)
        (fun _ => 2 * delta)]
      exact if_congr and_comm rfl rfl
  rw [Finset.sum_congr rfl hterm, Finset.sum_add_distrib]
  rw [sum_collapse ps.length a (fun i => i = b)
    (fun _ => delta * (1 - 2 * (ts : ℚ)))]
  rw [sum_collapse ps.length a (fun i => i + 1 ≤ b ∧ b < ps.length)
    (fun _ => 2 * delta)]
  split_ifs <;> first | ring1 | (exfalso; omega)

theorem lookup_applyUpdates_isSome (us : List ((Nat × Nat) × ℚ)) (Q : QMap)
    (k : Nat × Nat) (h : (Q.lookup k).isSome) :
    ((applyUpdates us Q).lookup k).isSome := by
  obtain ⟨v, hv⟩ := Option.isSome_iff_exists.mp h
  rw [applyUpdates_eq_mapAdd, lookup_mapAdd, hv]
  rfl

theorem initQ_lookup_isSome {N a b : Nat} (hab : a ≤ b) (hbN : b < N) :
    (((initQ N).lookup (a, b)).isSome) = true := by
  rw [initQ_lookup hab hbN]
  rfl

theorem qVal_initQ {N a b : Nat} (hab : a ≤ b) (hbN : b < N) :
    qVal (initQ N) (a, b) = 0 := by
  unfold qVal
  rw [initQ_lookup hab hbN]
  rfl

/-- Master decomposition: for every populated key, the final coefficient is
the sum of the four passes' contributions. -/
theorem qVal_buildQ (ps : List Player) (B : ℚ) (reqs : List (String × ℤ))
    (ts : ℤ) (alpha beta gamma delta : ℚ) (a b : Nat)
    (hab : a ≤ b) (hbN : b < ps.length) :
    qVal (buildQ ps B reqs ts alpha beta gamma delta) (a, b)
      = contrib (objectiveUpdates ps alpha) (a, b)
        + contrib (budgetUpdates ps B beta) (a, b)
        + contrib (categoryUpdates ps reqs gamma) (a, b)
        + contrib (sizeUpdates ps ts delta) (a, b) := by
  have h0 : (((initQ ps.length).lookup (a, b)).isSome) = true :=
    initQ_lookup_isSome hab hbN
  have h1 := lookup_applyUpdates_isSome (objectiveUpdates ps alpha) _ _ h0
  have h2 := lookup_applyUpdates_isSome (budgetUpdates ps B beta) _ _ h1
  have h3 := lookup_applyUpdates_isSome (categoryUpdates ps reqs gamma) _ _ h2
  unfold buildQ
  rw [qVal_applyUpdates _ _ _ h3, qVal_applyUpdates _ _ _ h2,
    qVal_applyUpdates _ _ _ h1, qVal_applyUpdates _ _ _ h0,
    qVal_initQ hab hbN]
  ring

/-- The four passes of the builder, indexed in the source's order:
0 = points, 1 = salary, 2 = positional, 3 = team size. -/
def passUpdates (ps : List Player) (budget : ℚ) (reqs : List (String × ℤ))
    (ts : ℤ) (alpha beta gamma delta : ℚ) : Fin 4 → List ((Nat × Nat) × ℚ)
  | 0 => objectiveUpdates ps alpha
  | 1 => budgetUpdates ps budget beta
  | 2 => categoryUpdates ps reqs gamma
  | 3 => sizeUpdates ps ts delta

/-- Run the four passes in a caller-chosen order. -/
def runPasses (ps : List Player) (budget : ℚ) (reqs : List (String × ℤ))
    (ts : ℤ) (alpha beta gamma delta : ℚ) (order : List (Fin 4)) (Q : QMap) :
    QMap :=
  order.foldl
    (fun Q p => applyUpdates (passUpdates ps budget reqs ts alpha beta gamma delta p) Q) Q

theorem runPasses_eq_mapAdd (ps : List Player) (budget : ℚ)
    (reqs : List (String × ℤ)) (ts : ℤ) (alpha beta gamma delta : ℚ)
    (order : List (Fin 4)) (Q : QMap) :
    runPasses ps budget reqs ts alpha beta gamma delta order Q
      = mapAdd (fun k => (order.map (fun p =>
          contrib (passUpdates ps budget reqs ts alpha beta gamma delta p) k)).sum) Q := by
  induction order generalizing Q with
  | nil =>
    have h : (fun k : Nat × Nat => (([] : List (Fin 4)).map (fun p =>
        contrib (passUpdates ps budget reqs ts alpha beta gamma delta p) k)).sum)
        = fun _ => (0 : ℚ) := rfl
    unfold runPasses
    rw [List.foldl_nil, h]
    unfold mapAdd
    simp
  | cons p rest ih =>
    have h1 : runPasses ps budget reqs ts alpha beta gamma delta (p :: rest) Q
        = runPasses ps budget reqs ts alpha beta gamma delta rest
            (applyUpdates (passUpdates ps budget reqs ts alpha beta gamma delta p) Q) :=
      rfl
    rw [h1, ih, applyUpdates_eq_mapAdd, mapAdd_mapAdd]
    congr 1

theorem buildQ_eq_runPasses (ps : List Player) (budget : ℚ)
    (reqs : List (String × ℤ)) (ts : ℤ) (alpha beta gamma delta : ℚ) :
    buildQ ps budget reqs ts alpha beta gamma delta
      = runPasses ps budget reqs ts alpha beta gamma delta
          [0, 1, 2, 3] (initQ ps.length) :=
  rfl

/-- Binary assignment value of a variable, as a rational. -/
def xq (x : Nat → Bool) (i : Nat) : ℚ := if x i then 1 else 0

/-- The quadratic form a QUBO dictionary assigns to a binary assignment:
`Σ Q[(i,j)] · x_i · x_j` over all stored entries. -/
def energy (Q : QMap) (x : Nat → Bool) : ℚ :=
  (Q.map (fun e => e.2 * xq x e.1.1 * xq x e.1.2)).sum

/-- Total selected cost `Σ cost(i)·x_i` (the left side of line 26 of
`nfl_pulp.py` and of the salary penalty of `nfl_dwave.py`). -/
def totalCost (ps : List Player) (x : Nat → Bool) : ℚ :=
  ∑ i in Finset.range ps.length, (playerAt ps i).cost * xq x i

/-- The hard one-sided budget constraint of `nfl_pulp.py`, line 26:
`lpSum(players[i][3] * x[i] ...) <= budget`. -/
def pulpBudgetOK (ps : List Player) (budget : ℚ) (x : Nat → Bool) : Prop :=
  totalCost ps x ≤ budget

theorem xq_mul_self (x : Nat → Bool) (i : Nat) : xq x i * xq x i = xq x i := by
  unfold xq
  by_cases h : x i <;> simp [h]

theorem sum_flatMap_q {α : Type} (l : List α) (g : α → List ℚ) :
    (l.flatMap g).sum = (l.map (fun a => (g a).sum)).sum := by
  induction l with
  | nil => rfl
  | cons a t ih =>
    rw [List.flatMap_cons, List.sum_append, ih]
    simp

theorem energy_mapAdd_initQ (N : Nat) (f : Nat × Nat → ℚ) (x : Nat → Bool) :
    energy (mapAdd f (initQ N)) x
      = (∑ i in Finset.range N, f (i, i) * xq x i)
        + ∑ i in Finset.range N,
            ∑ j in Finset.Ico (i + 1) N, f (i, j) * xq x i * xq x j := by
  unfold energy mapAdd initQ
  rw [List.map_append, List.map_append, List.sum_append, List.map_map,
    List.map_map, List.map_map, List.map_flatMap]
  congr 1
  · rw [sum_list_range]
    refine Finset.sum_congr rfl (fun i _ => ?_)
    show (0 + f (i, i)) * xq x i * xq x i = f (i, i) * xq x i
    rw [zero_add, mul_assoc, xq_mul_self]
  · rw [sum_flatMap_q, sum_list_range]
    refine Finset.sum_congr rfl (fun i hi => ?_)
    rw [List.map_map, sum_list_range',
      (show i + 1 + (N - (i + 1)) = N by
        have := Finset.mem_range.mp hi; omega)]
    refine Finset.sum_congr rfl (fun j _ => ?_)
    show (0 + f (i, j)) * xq x i * xq x j = f (i, j) * xq x i * xq x j
    rw [zero_add]

theorem xq_sq (x : Nat → Bool) (i : Nat) : xq x i ^ 2 = xq x i := by
  rw [sq, xq_mul_self]

theorem sq_sum_Ico (N : Nat) (u : Nat → ℚ) :
    (∑ i in Finset.range N, u i) ^ 2
      = (∑ i in Finset.range N, u i ^ 2)
        + 2 * ∑ i in Finset.range N, ∑ j in Finset.Ico (i + 1) N, u i * u j := by
  induction N with
  | zero => simp
  | succ N ih =>
    have hsplit : ∀ i ∈ Finset.range N,
        (∑ j in Finset.Ico (i + 1) (N + 1), u i * u j)
          = (∑ j in Finset.Ico (i + 1) N, u i * u j) + u i * u N := by
      intro i hi
      exact Finset.sum_Ico_succ_top (by have := Finset.mem_range.mp hi; omega) _
    rw [Finset.sum_range_succ, Finset.sum_range_succ (fun i => u i ^ 2),
      Finset.sum_range_succ
        (fun i => ∑ j in Finset.Ico (i + 1) (N + 1), u i * u j),
      Finset.sum_congr rfl hsplit, Finset.sum_add_distrib, ← Finset.sum_mul,
      Finset.Ico_self, Finset.sum_empty]
    linear_combination ih

/-- The quadratic form stored by the salary pass alone is the expansion of
`beta * ((Σ cost·x − budget)² − budget²)`: a symmetric target-value penalty
(the constant `beta*budget²` of the true square is dropped, which shifts
all energies equally). -/
theorem energy_budgetPass (ps : List Player) (B beta : ℚ) (x : Nat → Bool) :
    energy (applyUpdates (budgetUpdates ps B beta) (initQ ps.length)) x
      = beta * ((totalCost ps x - B) ^ 2 - B ^ 2) := by
  rw [applyUpdates_eq_mapAdd, energy_mapAdd_initQ]
  unfold totalCost
  have hdiag : ∀ i ∈ Finset.range ps.length,
      contrib (budgetUpdates ps B beta) (i, i) * xq x i
        = (beta * (playerAt ps i).cost ^ 2
            - 2 * beta * B * (playerAt ps i).cost) * xq x i := by
    intro i hi
    rw [contrib_budgetUpdates, if_pos ⟨rfl, Finset.mem_range.mp hi⟩]
  have hoff : ∀ i ∈ Finset.range ps.length,
      (∑ j in Finset.Ico (i + 1) ps.length,
          contrib (budgetUpdates ps B beta) (i, j) * xq x i * xq x j)
        = ∑ j in Finset.Ico (i + 1) ps.length,
            2 * beta * ((playerAt ps i).cost * xq x i)
              * ((playerAt ps j).cost * xq x j) := by
    intro i hi
    refine Finset.sum_congr rfl (fun j hj => ?_)
    have hj' := Finset.mem_Ico.mp hj
    rw [contrib_budgetUpdates, if_neg (by omega), if_pos ⟨by omega, hj'.2⟩]
    ring
  rw [Finset.sum_congr rfl hdiag, Finset.sum_congr rfl hoff]
  have hsq := sq_sum_Ico ps.length (fun i => (playerAt ps i).cost * xq x i)
  have hsq1 : ∀ i ∈ Finset.range ps.length,
      ((playerAt ps i).cost * xq x i) ^ 2
        = (playerAt ps i).cost ^ 2 * xq x i := by
    intro i _
    rw [mul_pow, xq_sq]
  rw [Finset.sum_congr rfl hsq1] at hsq
  have hA : (∑ i in Finset.range ps.length,
      (beta * (playerAt ps i).cost ^ 2
        - 2 * beta * B * (playerAt ps i).cost) * xq x i)
    = beta * (∑ i in Finset.range ps.length,
        (playerAt ps i).cost ^ 2 * xq x i)
      - 2 * beta * B
        * ∑ i in Finset.range ps.length, (playerAt ps i).cost * xq x i := by
    rw [Finset.mul_sum, Finset.mul_sum, ← Finset.sum_sub_distrib]
    refine Finset.sum_congr rfl (fun i _ => ?_)
    ring
  have hB : (∑ i in Finset.range ps.length, ∑ j in Finset.Ico (i + 1) ps.length,
      2 * beta * ((playerAt ps i).cost * xq x i)
        * ((playerAt ps j).cost * xq x j))
    = 2 * beta * ∑ i in Finset.range ps.length,
        ∑ j in Finset.Ico (i + 1) ps.length,
          ((playerAt ps i).cost * xq x i) * ((playerAt ps j).cost * xq x j) := by
    rw [Finset.mul_sum]
    refine Finset.sum_congr rfl (fun i _ => ?_)
    rw [Finset.mul_sum]
    refine Finset.sum_congr rfl (fun j _ => ?_)
    ring
  rw [hA, hB]
  linear_combination (-beta) * hsq

theorem playerAt_cons_zero (p : Player) (rest : List Player) :
    playerAt (p :: rest) 0 = p := rfl

theorem playerAt_cons_succ (p : Player) (rest : List Player) (n : Nat) :
    playerAt (p :: rest) (n + 1) = playerAt rest n := rfl

theorem contrib_objectiveUpdates_zero (ps : List Player) (k : Nat × Nat) :
    contrib (objectiveUpdates ps 0) k = 0 := by
  obtain ⟨a, b⟩ := k
  rw [contrib_objectiveUpdates]
  split_ifs <;> ring

theorem contrib_budgetUpdates_zero (ps : List Player) (B : ℚ) (k : Nat × Nat) :
    contrib (budgetUpdates ps B 0) k = 0 := by
  obtain ⟨a, b⟩ := k
  rw [contrib_budgetUpdates]
  split_ifs <;> ring

theorem contrib_sizeUpdates_zero (ps : List Player) (ts : ℤ) (k : Nat × Nat) :
    contrib (sizeUpdates ps ts 0) k = 0 := by
  obtain ⟨a, b⟩ := k
  rw [contrib_sizeUpdates]
  split_ifs <;> ring

theorem contrib_categoryUpdates_zero (ps : List Player)
    (reqs : List (String × ℤ)) (k : Nat × Nat) :
    contrib (categoryUpdates ps reqs 0) k = 0 := by
  induction reqs with
  | nil => rfl
  | cons pn rest ih =>
    obtain ⟨p, n⟩ := pn
    obtain ⟨a, b⟩ := k
    rw [contrib_categoryUpdates_cons, ih, contrib_categoryUpdates_single]
    split_ifs <;> ring

theorem contrib_objectiveUpdates_smul (ps : List Player) (c alpha : ℚ)
    (k : Nat × Nat) :
    contrib (objectiveUpdates ps (c * alpha)) k
      = c * contrib (objectiveUpdates ps alpha) k := by
  obtain ⟨a, b⟩ := k
  rw [contrib_objectiveUpdates, contrib_objectiveUpdates]
  split_ifs <;> ring

theorem contrib_budgetUpdates_smul (ps : List Player) (B c beta : ℚ)
    (k : Nat × Nat) :
    contrib (budgetUpdates ps B (c * beta)) k
      = c * contrib (budgetUpdates ps B beta) k := by
  obtain ⟨a, b⟩ := k
  rw [contrib_budgetUpdates, contrib_budgetUpdates]
  split_ifs <;> ring

theorem contrib_sizeUpdates_smul (ps : List Player) (ts : ℤ) (c delta : ℚ)
    (k : Nat × Nat) :
    contrib (sizeUpdates ps ts (c * delta)) k
      = c * contrib (sizeUpdates ps ts delta) k := by
  obtain ⟨a, b⟩ := k
  rw [contrib_sizeUpdates, contrib_sizeUpdates]
  split_ifs <;> ring

theorem contrib_categoryUpdates_smul (ps : List Player)
    (reqs : List (String × ℤ)) (c gamma : ℚ) (k : Nat × Nat) :
    contrib (categoryUpdates ps reqs (c * gamma)) k
      = c * contrib (categoryUpdates ps reqs gamma) k := by
  induction reqs with
  | nil =>
    show (0 : ℚ) = c * 0
    ring
  | cons pn rest ih =>
    obtain ⟨p, n⟩ := pn
    obtain ⟨a, b⟩ := k
    rw [contrib_categoryUpdates_cons, contrib_categoryUpdates_single, ih,
      contrib_categoryUpdates_cons, contrib_categoryUpdates_single]
    split_ifs <;> ring

end QuantumOpt

namespace Sarima

/-- Python's `round` on an exact rational: round to the nearest integer,
ties to the even neighbour. -/
def pyRound (q : ℚ) : ℤ :=
  if Int.fract q < 1 / 2 then ⌊q⌋
  else if 1 / 2 < Int.fract q then ⌊q⌋ + 1
  else if ⌊q⌋ % 2 = 0 then ⌊q⌋ else ⌊q⌋ + 1

/-- The piecewise CPCB breakpoint mapping of `calculate_aqi_pm25`
(lines 19–31 of `sarima.py`) before rounding; `min … 500` is the cap of
line 31, applied only on the last branch, exactly as in the source. -/
def aqiRaw (pm25 : ℚ) : ℚ :=
  if pm25 ≤ 30 then (50 / 30) * pm25
  else if pm25 ≤ 60 then 50 + (50 / 30) * (pm25 - 30)
  else if pm25 ≤ 90 then 100 + (100 / 30) * (pm25 - 60)
  else if pm25 ≤ 120 then 200 + (100 / 30) * (pm25 - 90)
  else if pm25 ≤ 250 then 300 + (100 / 130) * (pm25 - 120)
  else min (400 + (100 / 250) * (pm25 - 250)) 500

/-- `calculate_aqi_pm25` (lines 15–32 of `sarima.py`), with `NaN`
modelled as `none` and real arithmetic as `ℚ`: `NaN` maps to `NaN`,
anything else to the rounded piecewise value. -/
def calculate_aqi_pm25 : Option ℚ → Option ℤ
  | none => none
  | some p => some (pyRound (aqiRaw p))

theorem pyRound_le {q : ℚ} {n : ℤ} (h : q ≤ (n : ℚ)) : pyRound q ≤ n := by
  have hfq : Int.fract q = q - (⌊q⌋ : ℚ) := rfl
  have hf : ⌊q⌋ ≤ n := by
    have := Int.floor_le_floor h
    rwa [Int.floor_intCast] at this
  have hfl : (⌊q⌋ : ℚ) ≤ q := Int.floor_le q
  unfold pyRound
  split_ifs with h1 h2 h3
  · exact hf
  · have h4 : (⌊q⌋ : ℚ) + 1 / 2 < q := by rw [hfq] at h2; linarith
    have h5 : (⌊q⌋ : ℚ) < (n : ℚ) := by linarith
    have h6 : ⌊q⌋ < n := by exact_mod_cast h5
    omega
  · exact hf
  · have hhalf : Int.fract q = 1 / 2 := le_antisymm (not_lt.mp h2) (not_lt.mp h1)
    have h4 : (⌊q⌋ : ℚ) + 1 / 2 = q := by rw [hfq] at hhalf; linarith
    have h5 : (⌊q⌋ : ℚ) < (n : ℚ) := by linarith
    have h6 : ⌊q⌋ < n := by exact_mod_cast h5
    omega

theorem pyRound_mono {a b : ℚ} (h : a ≤ b) : pyRound a ≤ pyRound b := by
  have hf : ⌊a⌋ ≤ ⌊b⌋ := Int.floor_le_floor h
  rcases eq_or_lt_of_le hf with heq | hlt
  · have hfr : Int.fract a ≤ Int.fract b := by
      have h1 : Int.fract a = a - (⌊a⌋ : ℚ) := rfl
      have h2 : Int.fract b = b - (⌊b⌋ : ℚ) := rfl
      have h3 : ((⌊a⌋ : ℤ) : ℚ) = ((⌊b⌋ : ℤ) : ℚ) := by exact_mod_cast heq
      rw [h1, h2, ← h3]
      linarith
    unfold pyRound
    rw [heq]
    split_ifs <;> first | omega | (exfalso; linarith)
  · have h1 : pyRound a ≤ ⌊a⌋ + 1 := by
      unfold pyRound
      split_ifs <;> omega
    have h2 : ⌊b⌋ ≤ pyRound b := by
      unfold pyRound
      split_ifs <;> omega
    omega

theorem aqiRaw_le_500 (p : ℚ) : aqiRaw p ≤ 500 := by
  unfold aqiRaw
  split_ifs <;> first | linarith | exact min_le_right _ _

theorem aqiRaw_mono {a b : ℚ} (ha : 0 ≤ a) (hab : a ≤ b) :
    aqiRaw a ≤ aqiRaw b := by
  unfold aqiRaw
  split_ifs <;>
    first
      | linarith
      | (refine le_min ?_ ?_ <;> linarith)
      | (exact min_le_min (by linarith) le_rfl)

/-!
Name resolution for the `return forecasts, mae, rmse` statement of
`fit_and_forecast` (line 126 of `sarima.py`).  Python resolves a name used
in a function body against the function's local bindings (names assigned
anywhere in the body, including parameters) and, failing that, the module
globals at call time; an unbound name raises `NameError`.
-/

/-- Names bound in `fit_and_forecast`: its two parameters and every name
assigned in its body (lines 56–124). -/
def fitAndForecastLocals : List String :=
  ["data_daily", "station_id", "adf_result", "model", "results",
   "forecast_horizons", "forecasts", "horizon_name", "days", "forecast",
   "forecast_mean", "forecast_ci", "forecast_df"]

/-- Module-level names bound before the first call of `fit_and_forecast`
at line 139: the imports (lines 1–8), `logger` (line 12), the three
function definitions, and the assignments of lines 129–138. -/
def moduleGlobalsAtCall : List String :=
  ["pd", "np", "SARIMAX", "adfuller", "plot_acf", "plot_pacf", "plt",
   "logging", "timedelta", "logger", "calculate_aqi_pm25",
   "preprocess_data", "fit_and_forecast", "stations", "all_forecasts",
   "validation_metrics", "file_path", "station_id", "data_daily"]

/-- Looking up one name: locals first, then globals, else `NameError`. -/
def evalName (locals globals : List String) (n : String) :
    Except String Unit :=
  if n ∈ locals then Except.ok ()
  else if n ∈ globals then Except.ok ()
  else Except.error ("NameError: " ++ n)

/-- Evaluation of the tuple `forecasts, mae, rmse` of the return statement,
left to right; the first unbound name aborts with its `NameError`. -/
def returnFitAndForecast (globals : List String) : Except String Unit := do
  let _ ← evalName fitAndForecastLocals globals "forecasts"
  let _ ← evalName fitAndForecastLocals globals "mae"
  let _ ← evalName fitAndForecastLocals globals "rmse"
  Except.ok ()

/-- The `stations` list of lines 129–132. -/
def stationsList : List (String × String) :=
  [("AP001.csv", "AP001"), ("AP003.csv", "AP003")]

/-- Outcome of the module-level loop of lines 136–141 followed by the
summary printing of lines 144–153. -/
structure ScriptRun where
  completedIterations : Nat
  summaryPrinted : Bool
  uncaught : Option String
deriving DecidableEq, Repr

/-- The loop of lines 136–141: each iteration calls `fit_and_forecast`
(whose return statement evaluates `forecasts, mae, rmse`); an uncaught
exception stops the script before the summary of lines 144–153. -/
def runStationsLoop (globals : List String) :
    List (String × String) → Nat → ScriptRun
  | [], n => { completedIterations := n, summaryPrinted := true, uncaught := none }
  | _ :: rest, n =>
    match returnFitAndForecast globals with
    | Except.ok _ => runStationsLoop globals rest (n + 1)
    | Except.error e =>
      { completedIterations := n, summaryPrinted := false, uncaught := some e }

end Sarima

namespace QuantumOpt

theorem initQ_keys_eq (N : Nat) :
    (initQ N).map Prod.fst
      = ((List.range N).map (fun i => (i, i)))
        ++ (List.range N).flatMap (fun i =>
            (List.range' (i + 1) (N - (i + 1))).map (fun j => (i, j))) := by
  unfold initQ
  simp only [List.map_append, List.map_map, List.map_flatMap]
  rfl

theorem buildQ_keys (ps : List Player) (B : ℚ) (reqs : List (String × ℤ))
    (ts : ℤ) (alpha beta gamma delta : ℚ) :
    (buildQ ps B reqs ts alpha beta gamma delta).map Prod.fst
      = (initQ ps.length).map Prod.fst := by
  unfold buildQ
  rw [applyUpdates_eq_mapAdd, applyUpdates_eq_mapAdd,
    applyUpdates_eq_mapAdd, applyUpdates_eq_mapAdd,
    map_fst_mapAdd, map_fst_mapAdd, map_fst_mapAdd, map_fst_mapAdd]

theorem initQ_diag_count (N : Nat) :
    (((initQ N).map Prod.fst).filter (fun e => e.1 = e.2)).length = N := by
  rw [initQ_keys_eq, List.filter_append]
  have h1 : ((List.range N).map (fun i => (i, i))).filter
      (fun e => e.1 = e.2) = (List.range N).map (fun i => (i, i)) := by
    rw [List.filter_eq_self]
    intro e he
    obtain ⟨i, _, rfl⟩ := List.mem_map.mp he
    simp
  have h2 : ((List.range N).flatMap (fun i =>
      (List.range' (i + 1) (N - (i + 1))).map (fun j => (i, j)))).filter
        (fun e => e.1 = e.2) = [] := by
    rw [List.filter_eq_nil_iff]
    intro e he
    obtain ⟨i, _, he2⟩ := List.mem_flatMap.mp he
    obtain ⟨j, hj, rfl⟩ := List.mem_map.mp he2
    have hj' := List.mem_range'_1.mp hj
    simp only [decide_eq_true_eq]
    omega
  rw [h1, h2, List.length_append, List.length_nil, List.length_map,
    List.length_range]
  omega

theorem initQ_offdiag_count (N : Nat) :
    (((initQ N).map Prod.fst).filter (fun e => e.1 < e.2)).length
      = N * (N - 1) / 2 := by
  rw [initQ_keys_eq, List.filter_append]
  have h1 : ((List.range N).map (fun i => (i, i))).filter
      (fun e => e.1 < e.2) = [] := by
    rw [List.filter_eq_nil_iff]
    intro e he
    obtain ⟨i, _, rfl⟩ := List.mem_map.mp he
    simp
  have h2 : ((List.range N).flatMap (fun i =>
      (List.range' (i + 1) (N - (i + 1))).map (fun j => (i, j)))).filter
        (fun e => e.1 < e.2)
      = (List.range N).flatMap (fun i =>
          (List.range' (i + 1) (N - (i + 1))).map (fun j => (i, j))) := by
    rw [List.filter_eq_self]
    intro e he
    obtain ⟨i, _, he2⟩ := List.mem_flatMap.mp he
    obtain ⟨j, hj, rfl⟩ := List.mem_map.mp he2
    have hj' := List.mem_range'_1.mp hj
    simp only [decide_eq_true_eq]
    omega
  rw [h1, h2, List.length_append, List.length_nil, List.length_flatMap]
  have h3 : (List.map (List.length ∘ fun i =>
        List.map (fun j => (i, j)) (List.range' (i + 1) (N - (i + 1))))
        (List.range N))
      = (List.range N).map (fun i => N - (i + 1)) := by
    refine List.map_congr_left (fun i _ => ?_)
    show (List.map (fun j => (i, j))
      (List.range' (i + 1) (N - (i + 1)))).length = N - (i + 1)
    rw [List.length_map, List.length_range']
  rw [h3, sum_list_range]
  have h4 : ∀ i ∈ Finset.range N, N - (i + 1) = N - 1 - i := by
    intro i _
    omega
  rw [Finset.sum_congr rfl h4, Finset.sum_range_reflect (fun i => i) N,
    Finset.sum_range_id]
  omega

end QuantumOpt

open QuantumOpt Sarima

/-- C1: for the end-to-end scenario (two category-A entities with values
10 and 8, costs 5 and 4, budget 9, quota {A: 2}, size quota 2, α=1, β=10,
γ=100, δ=100) the builder produces diagonal(0) = −1260 and
off-diagonal(0,1) = 800. -/
theorem c1_end_to_end_scenario :
    qVal (buildQ [⟨0, "A", 10, 5⟩, ⟨1, "A", 8, 4⟩] 9 [("A", 2)] 2
        1 10 100 100) (0, 0) = -1260
    ∧ qVal (buildQ [⟨0, "A", 10, 5⟩, ⟨1, "A", 8, 4⟩] 9 [("A", 2)] 2
        1 10 100 100) (0, 1) = 800 := by
  constructor <;>
    · norm_num [buildQ, applyUpdates, objectiveUpdates, budgetUpdates,
        categoryUpdates, sizeUpdates, initQ, addTo, playerAt, qVal,
        List.range_succ, List.range', List.lookup, List.foldl, List.flatMap]
      rfl

/-- C2: the budget pass adds `β·cost(i)² − 2·β·budget·cost(i)` to every
diagonal entry and `2·β·cost(i)·cost(j)` to every off-diagonal entry
`i<j`; for two entities with β=1 and all other weights 0 the final
coefficients are exactly the expansion of `(c0·x0 + c1·x1 − budget)²`
minus its constant term. -/
theorem c2_budget_pass (ps : List Player) (B beta : ℚ) (Q : QMap)
    (i j : Nat) (hi : i < ps.length) (hj : j < ps.length)
    (hQi : ((Q.lookup (i, i)).isSome) = true)
    (hQo : ((Q.lookup (i, j)).isSome) = true) :
    (qVal (applyUpdates (budgetUpdates ps B beta) Q) (i, i)
      = qVal Q (i, i) + (beta * (playerAt ps i).cost ^ 2
          - 2 * beta * B * (playerAt ps i).cost))
    ∧ (i < j →
        qVal (applyUpdates (budgetUpdates ps B beta) Q) (i, j)
          = qVal Q (i, j)
            + 2 * beta * (playerAt ps i).cost * (playerAt ps j).cost)
    ∧ (∀ p0 p1 : Player, ∀ b2 : ℚ, ∀ reqs : List (String × ℤ), ∀ ts : ℤ,
        qVal (buildQ [p0, p1] b2 reqs ts 0 1 0 0) (0, 0)
            = p0.cost ^ 2 - 2 * b2 * p0.cost
          ∧ qVal (buildQ [p0, p1] b2 reqs ts 0 1 0 0) (1, 1)
            = p1.cost ^ 2 - 2 * b2 * p1.cost
          ∧ qVal (buildQ [p0, p1] b2 reqs ts 0 1 0 0) (0, 1)
            = 2 * p0.cost * p1.cost) := by
  refine ⟨?_, ?_, ?_⟩
  · rw [qVal_applyUpdates _ _ _ hQi, contrib_budgetUpdates,
      if_pos ⟨rfl, hi⟩]
  · intro hij
    rw [qVal_applyUpdates _ _ _ hQo, contrib_budgetUpdates,
      if_neg (by omega), if_pos ⟨hij, hj⟩]
  · intro p0 p1 b2 reqs ts
    refine ⟨?_, ?_, ?_⟩ <;>
      · rw [qVal_buildQ _ _ _ _ _ _ _ _ _ _ (by omega) (by simp),
          contrib_objectiveUpdates_zero, contrib_categoryUpdates_zero,
          contrib_sizeUpdates_zero, contrib_budgetUpdates]
        norm_num [playerAt_cons_zero, playerAt_cons_succ]

/-- C3: the positional pass adds `γ(1 − 2·n_k)` to the diagonal of every
entity of the category and `2γ` to every off-diagonal pair inside the
category, and nothing to other entities or mixed pairs; with 3 entities
of one category, quota 2, γ=1 and all other weights 0, every diagonal is
−3 and every off-diagonal is 2. -/
theorem c3_category_pass (ps : List Player) (p : String) (n : ℤ)
    (gamma : ℚ) (Q : QMap) (a b : Nat)
    (haN : a < ps.length) (hbN : b < ps.length)
    (hQd : ((Q.lookup (a, a)).isSome) = true)
    (hQo : ((Q.lookup (a, b)).isSome) = true) :
    ((playerAt ps a).pos = p →
      qVal (applyUpdates (categoryUpdates ps [(p, n)] gamma) Q) (a, a)
        = qVal Q (a, a) + gamma * (1 - 2 * (n : ℚ)))
    ∧ ((playerAt ps a).pos ≠ p →
        qVal (applyUpdates (categoryUpdates ps [(p, n)] gamma) Q) (a, a)
          = qVal Q (a, a))
    ∧ (a < b → (playerAt ps a).pos = p → (playerAt ps b).pos = p →
        qVal (applyUpdates (categoryUpdates ps [(p, n)] gamma) Q) (a, b)
          = qVal Q (a, b) + 2 * gamma)
    ∧ (a < b → ((playerAt ps a).pos ≠ p ∨ (playerAt ps b).pos ≠ p) →
        qVal (applyUpdates (categoryUpdates ps [(p, n)] gamma) Q) (a, b)
          = qVal Q (a, b))
    ∧ (∀ cat : String, ∀ v0 v1 v2 c0 c1 c2 B : ℚ, ∀ ts : ℤ,
        (∀ i : Nat, i < 3 →
          qVal (buildQ [⟨0, cat, v0, c0⟩, ⟨1, cat, v1, c1⟩, ⟨2, cat, v2, c2⟩]
            B [(cat, 2)] ts 0 0 1 0) (i, i) = -3)
        ∧ ∀ i j : Nat, i < j → j < 3 →
            qVal (buildQ [⟨0, cat, v0, c0⟩, ⟨1, cat, v1, c1⟩, ⟨2, cat, v2, c2⟩]
              B [(cat, 2)] ts 0 0 1 0) (i, j) = 2) := by
  refine ⟨?_, ?_, ?_, ?_, ?_⟩
  · intro hp
    rw [qVal_applyUpdates _ _ _ hQd, contrib_categoryUpdates_single,
      if_pos ⟨⟨rfl, haN⟩, hp⟩]
  · intro hp
    rw [qVal_applyUpdates _ _ _ hQd, contrib_categoryUpdates_single,
      if_neg (fun hc => hp hc.2), if_neg (fun hc => hp hc.2.1), add_zero]
  · intro hab hpa hpb
    rw [qVal_applyUpdates _ _ _ hQo, contrib_categoryUpdates_single,
      if_neg (by omega), if_pos ⟨⟨hab, hbN⟩, hpa, hpb⟩]
  · intro hab hmix
    rw [qVal_applyUpdates _ _ _ hQo, contrib_categoryUpdates_single,
      if_neg (by omega), if_neg (fun hc => by tauto), add_zero]
  · intro cat v0 v1 v2 c0 c1 c2 B ts
    constructor
    · intro i hi
      interval_cases i <;>
        · rw [qVal_buildQ _ _ _ _ _ _ _ _ _ _ (by omega) (by simp),
            contrib_objectiveUpdates_zero, contrib_budgetUpdates_zero,
            contrib_sizeUpdates_zero, contrib_categoryUpdates_single]
          norm_num [playerAt_cons_zero, playerAt_cons_succ]
    · intro i j hij hj
      interval_cases j <;> interval_cases i <;>
        · rw [qVal_buildQ _ _ _ _ _ _ _ _ _ _ (by omega) (by simp),
            contrib_objectiveUpdates_zero, contrib_budgetUpdates_zero,
            contrib_sizeUpdates_zero, contrib_categoryUpdates_single]
          norm_num [playerAt_cons_zero, playerAt_cons_succ]

/-- C4: for every entity list of size N ≥ 1 the builder's key set is
exactly the N diagonal pairs and the N(N−1)/2 ordered pairs `i<j`, each
present (even with coefficient zero), and no key has `i > j`. -/
theorem c4_key_set_invariants (ps : List Player) (B : ℚ)
    (reqs : List (String × ℤ)) (ts : ℤ) (alpha beta gamma delta : ℚ)
    (hN : 1 ≤ ps.length) :
    (∀ i j : Nat,
        (i, j) ∈ (buildQ ps B reqs ts alpha beta gamma delta).map Prod.fst
          ↔ i ≤ j ∧ j < ps.length)
    ∧ (((buildQ ps B reqs ts alpha beta gamma delta).map Prod.fst).filter
        (fun e => e.1 = e.2)).length = ps.length
    ∧ (((buildQ ps B reqs ts alpha beta gamma delta).map Prod.fst).filter
        (fun e => e.1 < e.2)).length = ps.length * (ps.length - 1) / 2
    ∧ ∀ e ∈ (buildQ ps B reqs ts alpha beta gamma delta).map Prod.fst,
        ¬e.2 < e.1 := by
  rw [buildQ_keys]
  refine ⟨?_, initQ_diag_count ps.length, initQ_offdiag_count ps.length, ?_⟩
  · intro i j
    exact mem_initQ_keys
  · intro e he
    obtain ⟨i, j⟩ := e
    have h := mem_initQ_keys.mp he
    omega

/-- C5: the salary pass stores the symmetric target-value penalty
`β((Σcost·x − budget)² − budget²)` — overshooting and undershooting by
the same amount cost the same — while `nfl_pulp.py` line 26 imposes the
hard one-sided constraint `Σcost·x ≤ budget`, which rejects exactly the
overshoot. -/
theorem c5_budget_penalty_symmetric_vs_lp (ps : List Player) (B beta : ℚ) :
    (∀ x : Nat → Bool,
        energy (applyUpdates (budgetUpdates ps B beta) (initQ ps.length)) x
          = beta * ((totalCost ps x - B) ^ 2 - B ^ 2))
    ∧ (∀ x y : Nat → Bool, ∀ d : ℚ,
        totalCost ps x = B + d → totalCost ps y = B - d →
          energy (applyUpdates (budgetUpdates ps B beta) (initQ ps.length)) x
            = energy (applyUpdates (budgetUpdates ps B beta) (initQ ps.length)) y)
    ∧ (∀ x y : Nat → Bool, ∀ d : ℚ, 0 < d →
        totalCost ps x = B + d → totalCost ps y = B - d →
          ¬pulpBudgetOK ps B x ∧ pulpBudgetOK ps B y) := by
  refine ⟨energy_budgetPass ps B beta, ?_, ?_⟩
  · intro x y d hx hy
    rw [energy_budgetPass, energy_budgetPass, hx, hy]
    ring
  · intro x y d hd hx hy
    unfold pulpBudgetOK
    rw [hx, hy]
    constructor
    · intro hle
      linarith
    · linarith

theorem c5_witness :
    ¬pulpBudgetOK [⟨0, "A", 1, 2⟩] 1 (fun _ => true)
    ∧ pulpBudgetOK [⟨0, "A", 1, 2⟩] 1 (fun _ => false)
    ∧ energy (applyUpdates (budgetUpdates [⟨0, "A", 1, 2⟩] 1 1) (initQ 1))
        (fun _ => true)
      = energy (applyUpdates (budgetUpdates [⟨0, "A", 1, 2⟩] 1 1) (initQ 1))
        (fun _ => false) := by
  have hx : totalCost [⟨0, "A", 1, 2⟩] (fun _ => true) = 1 + 1 := by
    norm_num [totalCost, Finset.sum_range_one, xq, playerAt_cons_zero]
  have hy : totalCost [⟨0, "A", 1, 2⟩] (fun _ => false) = 1 - 1 := by
    norm_num [totalCost, Finset.sum_range_one, xq, playerAt_cons_zero]
  have h := c5_budget_penalty_symmetric_vs_lp [⟨0, "A", 1, 2⟩] 1 1
  exact ⟨(h.2.2 _ _ 1 (by norm_num) hx hy).1,
    (h.2.2 _ _ 1 (by norm_num) hx hy).2, h.2.1 _ _ 1 hx hy⟩

/-- C6: scaling one penalty weight by `c` scales exactly that pass's
contribution by `c`, and the full coefficient at any populated key is the
sum of the four single-pass outputs obtained by zeroing the other
weights. -/
theorem c6_weight_linearity (ps : List Player) (B : ℚ)
    (reqs : List (String × ℤ)) (ts : ℤ) (alpha beta gamma delta c : ℚ)
    (a b : Nat) (hab : a ≤ b) (hbN : b < ps.length) :
    (contrib (objectiveUpdates ps (c * alpha)) (a, b)
        = c * contrib (objectiveUpdates ps alpha) (a, b))
    ∧ (contrib (budgetUpdates ps B (c * beta)) (a, b)
        = c * contrib (budgetUpdates ps B beta) (a, b))
    ∧ (contrib (categoryUpdates ps reqs (c * gamma)) (a, b)
        = c * contrib (categoryUpdates ps reqs gamma) (a, b))
    ∧ (contrib (sizeUpdates ps ts (c * delta)) (a, b)
        = c * contrib (sizeUpdates ps ts delta) (a, b))
    ∧ qVal (buildQ ps B reqs ts alpha beta gamma delta) (a, b)
        = qVal (buildQ ps B reqs ts alpha 0 0 0) (a, b)
          + qVal (buildQ ps B reqs ts 0 beta 0 0) (a, b)
          + qVal (buildQ ps B reqs ts 0 0 gamma 0) (a, b)
          + qVal (buildQ ps B reqs ts 0 0 0 delta) (a, b) := by
  refine ⟨contrib_objectiveUpdates_smul ps c alpha (a, b),
    contrib_budgetUpdates_smul ps B c beta (a, b),
    contrib_categoryUpdates_smul ps reqs c gamma (a, b),
    contrib_sizeUpdates_smul ps ts c delta (a, b), ?_⟩
  rw [qVal_buildQ _ _ _ _ _ _ _ _ _ _ hab hbN,
    qVal_buildQ _ _ _ _ _ _ _ _ _ _ hab hbN,
    qVal_buildQ _ _ _ _ _ _ _ _ _ _ hab hbN,
    qVal_buildQ _ _ _ _ _ _ _ _ _ _ hab hbN,
    qVal_buildQ _ _ _ _ _ _ _ _ _ _ hab hbN]
  simp only [contrib_objectiveUpdates_zero, contrib_budgetUpdates_zero,
    contrib_categoryUpdates_zero, contrib_sizeUpdates_zero]
  ring

theorem c6_witness :
    (0 : Nat) ≤ 1 ∧ (1 : Nat) < 2
    ∧ qVal (buildQ [⟨0, "A", 3, 5⟩, ⟨1, "B", 2, 7⟩] 4 [("A", 1)] 2 1 1 1 1)
        (0, 1)
      = qVal (buildQ [⟨0, "A", 3, 5⟩, ⟨1, "B", 2, 7⟩] 4 [("A", 1)] 2 1 0 0 0)
          (0, 1)
        + qVal (buildQ [⟨0, "A", 3, 5⟩, ⟨1, "B", 2, 7⟩] 4 [("A", 1)] 2 0 1 0 0)
          (0, 1)
        + qVal (buildQ [⟨0, "A", 3, 5⟩, ⟨1, "B", 2, 7⟩] 4 [("A", 1)] 2 0 0 1 0)
          (0, 1)
        + qVal (buildQ [⟨0, "A", 3, 5⟩, ⟨1, "B", 2, 7⟩] 4 [("A", 1)] 2 0 0 0 1)
          (0, 1) :=
  ⟨by norm_num, by norm_num,
    (c6_weight_linearity [⟨0, "A", 3, 5⟩, ⟨1, "B", 2, 7⟩] 4 [("A", 1)] 2
      1 1 1 1 1 0 1 (by norm_num) (by norm_num)).2.2.2.2⟩

/-- C7: each pass only adds to existing coefficients, so running the four
passes in any of the 24 orders produces the identical final dictionary. -/
theorem c7_pass_order_independence (ps : List Player) (B : ℚ)
    (reqs : List (String × ℤ)) (ts : ℤ) (alpha beta gamma delta : ℚ)
    (order : List (Fin 4)) (h : order.Perm [0, 1, 2, 3]) :
    runPasses ps B reqs ts alpha beta gamma delta order (initQ ps.length)
      = buildQ ps B reqs ts alpha beta gamma delta := by
  rw [buildQ_eq_runPasses, runPasses_eq_mapAdd, runPasses_eq_mapAdd]
  congr 1
  funext k
  exact List.Perm.sum_eq (h.map _)

theorem c7_witness :
    runPasses [⟨0, "A", 1, 2⟩] 3 [("A", 1)] 1 1 1 1 1 [3, 2, 1, 0] (initQ 1)
      = buildQ [⟨0, "A", 1, 2⟩] 3 [("A", 1)] 1 1 1 1 1 :=
  c7_pass_order_independence [⟨0, "A", 1, 2⟩] 3 [("A", 1)] 1 1 1 1 1
    [3, 2, 1, 0] (by decide)

/-- C8: the builder is a pure function of its inputs: two invocations on
equal inputs yield exactly equal coefficient dictionaries. -/
theorem c8_determinism (ps ps' : List Player) (B B' : ℚ)
    (reqs reqs' : List (String × ℤ)) (ts ts' : ℤ)
    (alpha alpha' beta beta' gamma gamma' delta delta' : ℚ)
    (h1 : ps = ps') (h2 : B = B') (h3 : reqs = reqs') (h4 : ts = ts')
    (h5 : alpha = alpha') (h6 : beta = beta') (h7 : gamma = gamma')
    (h8 : delta = delta') :
    buildQ ps B reqs ts alpha beta gamma delta
      = buildQ ps' B' reqs' ts' alpha' beta' gamma' delta' := by
  subst h1 h2 h3 h4 h5 h6 h7 h8
  rfl

theorem c8_witness :
    buildQ [⟨0, "A", 1, 2⟩] 1 [("A", 1)] 1 1 1 1 1
      = buildQ [⟨0, "A", 1, 2⟩] 1 [("A", 1)] 1 1 1 1 1 :=
  c8_determinism _ _ _ _ _ _ _ _ _ _ _ _ _ _ _ _
    rfl rfl rfl rfl rfl rfl rfl rfl

theorem returnFitAndForecast_error (globals : List String)
    (hg : "mae" ∉ globals) :
    returnFitAndForecast globals
      = Except.error ("NameError: " ++ "mae") := by
  have h1 : "forecasts" ∈ fitAndForecastLocals := by decide
  have h2 : "mae" ∉ fitAndForecastLocals := by decide
  unfold returnFitAndForecast evalName
  rw [if_pos h1, if_neg h2, if_neg hg]
  rfl

/-- C9: the return statement of `fit_and_forecast` always raises
`NameError` (`mae` is never assigned), so the stations loop never
completes an iteration and the final summary never prints. -/
theorem c9_fit_and_forecast_return_nameerror :
    (∀ globals : List String, "mae" ∉ globals →
        returnFitAndForecast globals
          = Except.error ("NameError: " ++ "mae"))
    ∧ returnFitAndForecast moduleGlobalsAtCall
        = Except.error ("NameError: " ++ "mae")
    ∧ runStationsLoop moduleGlobalsAtCall stationsList 0
        = { completedIterations := 0, summaryPrinted := false,
            uncaught := some ("NameError: " ++ "mae") } := by
  have hmod : "mae" ∉ moduleGlobalsAtCall := by decide
  refine ⟨returnFitAndForecast_error, returnFitAndForecast_error _ hmod, ?_⟩
  rw [(rfl : stationsList
    = [("AP001.csv", "AP001"), ("AP003.csv", "AP003")])]
  unfold runStationsLoop
  rw [returnFitAndForecast_error _ hmod]
  rfl

theorem c9_witness :
    returnFitAndForecast [] = Except.error ("NameError: " ++ "mae") :=
  c9_fit_and_forecast_return_nameerror.1 [] (by decide)

/-- C10: `calculate_aqi_pm25` returns NaN exactly on NaN, otherwise a
rounded value never exceeding 500, and it is monotone non-decreasing on
non-negative inputs. -/
theorem c10_calculate_aqi_pm25_props :
    (∀ o : Option ℚ, calculate_aqi_pm25 o = none ↔ o = none)
    ∧ (∀ p : ℚ, ∃ z : ℤ, calculate_aqi_pm25 (some p) = some z ∧ z ≤ 500)
    ∧ (∀ a b : ℚ, 0 ≤ a → a ≤ b →
        ∃ za zb : ℤ, calculate_aqi_pm25 (some a) = some za
          ∧ calculate_aqi_pm25 (some b) = some zb ∧ za ≤ zb) := by
  refine ⟨?_, ?_, ?_⟩
  · intro o
    cases o <;> simp [calculate_aqi_pm25]
  · intro p
    refine ⟨pyRound (aqiRaw p), rfl, pyRound_le ?_⟩
    have h := aqiRaw_le_500 p
    exact_mod_cast h
  · intro a b ha hab
    exact ⟨_, _, rfl, rfl, pyRound_mono (aqiRaw_mono ha hab)⟩

theorem c10_witness :
    (0 : ℚ) ≤ 10 ∧ (10 : ℚ) ≤ 40
    ∧ ∃ za zb : ℤ, calculate_aqi_pm25 (some 10) = some za
        ∧ calculate_aqi_pm25 (some 40) = some zb ∧ za ≤ zb :=
  ⟨by norm_num, by norm_num,
    c10_calculate_aqi_pm25_props.2.2 10 40 (by norm_num) (by norm_num)⟩

theorem c2_witness :
    qVal (applyUpdates
        (budgetUpdates [⟨0, "QB", 50, 8000⟩, ⟨1, "QB", 30, 7500⟩] 100000 10)
        (initQ 2)) (0, 1)
      = qVal (initQ 2) (0, 1) + 2 * 10 * (8000 : ℚ) * 7500 :=
  (c2_budget_pass [⟨0, "QB", 50, 8000⟩, ⟨1, "QB", 30, 7500⟩] 100000 10
    (initQ 2) 0 1 (by simp) (by simp) (by rfl) (by rfl)).2.1 (by norm_num)

theorem c3_witness :
    qVal (applyUpdates (categoryUpdates [⟨0, "A", 1, 2⟩] [("A", 1)] 5)
        (initQ 1)) (0, 0)
      = qVal (initQ 1) (0, 0) + 5 * (1 - 2 * ((1 : ℤ) : ℚ)) :=
  (c3_category_pass [⟨0, "A", 1, 2⟩] "A" 1 5 (initQ 1) 0 0
    (by simp) (by simp) (by rfl) (by rfl)).1 rfl

theorem c4_witness :
    (0, 1) ∈ (buildQ [⟨0, "A", 1, 2⟩, ⟨1, "B", 3, 4⟩] 1 [] 1 1 1 1 1).map
      Prod.fst
    ∧ (((buildQ [⟨0, "A", 1, 2⟩, ⟨1, "B", 3, 4⟩] 1 [] 1 1 1 1 1).map
        Prod.fst).filter (fun e => e.1 = e.2)).length = 2 := by
  have h := c4_key_set_invariants [⟨0, "A", 1, 2⟩, ⟨1, "B", 3, 4⟩] 1 [] 1
    1 1 1 1 (by simp)
  exact ⟨(h.1 0 1).mpr (by simp), h.2.1⟩
